import Mathlib

/-!
Verification of the spefit core against its specification.

The Python sources are shallowly embedded:
* the parameter registry (`spefit/pdf/base.py`) becomes pure list-manipulating
  functions over association lists keyed by `String`;
* the numeric kernels and mixture densities (`spefit/common/*.py`,
  `spefit/pdf/*.py`) become functions over `ℝ`, with `lgamma (k + 1)` for a
  loop index `k : ℕ` rendered exactly as `Real.log (Nat.factorial k)`;
* array-vectorized kernels are embedded pointwise (a numpy elementwise
  operation applied to an array is the same scalar function mapped over the
  entries), and per-bin arrays become `List ℝ`;
* the NaN-sensitive branch of `xlogy` is studied over a small float model
  `FM.RF` that adjoins a NaN element to `ℝ`;
* fallible operations (`_update_parameter`, `UnbinnedNLL.chi2`) return
  `Except String`.
-/

namespace Spefit

/-- Parameter of the PDF, from `PDFParameter` in `spefit/pdf/base.py`.
The numeric payload (`initial` and the two `limits` bounds) is modeled over
`ℚ`: the registry claims only copy and compare these fields, never compute
with them, so an executable carrier is used. -/
structure PDFParameter where
  initial : ℚ
  limits : ℚ × ℚ
  fixed : Bool
  multi : Bool
deriving DecidableEq, Repr

instance : Inhabited PDFParameter := ⟨⟨0, (0, 0), false, false⟩⟩

/-- Worker for `PDF._prepare_parameters`, recursing over the declaration
list with the running flat-vector offset `i_lookup` as accumulator (the
source increments an `i_lookup` counter while filling `parameter_dict`,
`parameter_is_multi` and the lookup array).  The lookup array of shape
(n_illuminations × n_declared) is stored as one list per declared parameter
(its column), since the source fills it one column at a time; row `i` of the
source array is entry `i` of each column. -/
def prepareParametersAux (n : ℕ) :
    List (String × PDFParameter) → ℕ →
    List (String × PDFParameter) × List (String × Bool) × List (List ℕ)
  | [], _ => ([], [], [])
  | (name, param) :: rest, iLookup =>
    if param.multi then
      let tail := prepareParametersAux n rest (iLookup + n)
      ((List.range n).map (fun i => (name ++ toString i, param)) ++ tail.1,
       (name, true) :: tail.2.1,
       (List.range n).map (fun i => iLookup + i) :: tail.2.2)
    else
      let tail := prepareParametersAux n rest (iLookup + 1)
      ((name, param) :: tail.1,
       (name, false) :: tail.2.1,
       (List.range n).map (fun _ => iLookup) :: tail.2.2)

/-- `PDF._prepare_parameters(parameters, n_illuminations)` from
`spefit/pdf/base.py`: returns the expanded parameter dict (as an ordered
association list), the per-base-name multi flags, and the illumination
lookup table (stored column-major, one column per declared parameter). -/
def prepareParameters (parameters : List (String × PDFParameter)) (nIlluminations : ℕ) :
    List (String × PDFParameter) × List (String × Bool) × List (List ℕ) :=
  prepareParametersAux nIlluminations parameters 0

/-- `PDF._lookup_parameters(parameters, i_illumination)`: numpy fancy
indexing `parameters[self._lookup[i_illumination]]` — read row
`i_illumination` of the lookup table (entry `i` of each stored column) and
select those offsets from the flat value vector. -/
def lookupParameters (lookup : List (List ℕ)) (values : List ℚ) (iIllumination : ℕ) :
    List ℚ :=
  (lookup.map (fun col => col.getD iIllumination 0)).map (fun off => values.getD off 0)

/-- Spec-side description of the expansion step of `_prepare_parameters`:
each multi declaration yields `n` entries whose names carry the illumination
index suffix, each non-multi declaration yields exactly one entry. -/
def expandedParams (parameters : List (String × PDFParameter)) (n : ℕ) :
    List (String × PDFParameter) :=
  parameters.flatMap fun q =>
    if q.2.multi then (List.range n).map (fun i => (q.1 ++ toString i, q.2)) else [q]

/-- Spec-side description of the flat-vector offset at which the expanded
entries of declared parameter `j` begin: every earlier multi declaration
consumes `n` slots and every earlier non-multi declaration consumes one. -/
def declOffset (parameters : List (String × PDFParameter)) (n j : ℕ) : ℕ :=
  ((parameters.take j).map (fun q => if q.2.multi then n else 1)).sum

/-- Python-dict lookup `d[name]` / `name in d` over the ordered association
list model (keys are unique in the source, so first match is the match). -/
def dictLookup {α : Type} : List (String × α) → String → Option α
  | [], _ => none
  | q :: rest, name => if q.1 = name then some q.2 else dictLookup rest name

/-- One `setattr(self._parameters[name], attribute, value)` step:
the attribute write is modeled by a function `g` on the parameter record
(each concrete mutator `update_parameters_initial` / `_limits` / `_fixed`
instantiates `g` with a record update of the corresponding field). -/
def setAttrAt (d : List (String × PDFParameter)) (name : String)
    (g : PDFParameter → PDFParameter) : List (String × PDFParameter) :=
  d.map fun q => if q.1 = name then (q.1, g q.2) else q

/-- `PDF._update_parameter(attribute, name, value)` from `spefit/pdf/base.py`:
if `name` is an expanded entry, update it; otherwise, if `name` is a multi
base name, update each illumination-suffixed replica; otherwise fail naming
the offending key. -/
def updateParameter (d : List (String × PDFParameter)) (isMulti : List (String × Bool))
    (nIlluminations : ℕ) (g : PDFParameter → PDFParameter) (name : String) :
    Except String (List (String × PDFParameter)) :=
  if (dictLookup d name).isSome then
    Except.ok (setAttrAt d name g)
  else if (dictLookup isMulti name).getD false then
    Except.ok ((List.range nIlluminations).foldl
      (fun acc i => setAttrAt acc (name ++ toString i) g) d)
  else
    Except.error ("No parameter named " ++ name ++ " in PDF")

/-- `PDF.n_free_parameters`: count of expanded entries not marked fixed. -/
def nFreeParameters (d : List (String × PDFParameter)) : ℕ :=
  (d.filter (fun q => !q.2.fixed)).length

open Classical

namespace FM

/-- Float model for the NaN-sensitive behaviour of `xlogy`
(`spefit/common/basic.py`): a real number or NaN.  Infinities and signed
zero are not distinguished; no studied claim depends on them. -/
inductive RF where
  | nan : RF
  | fin : ℝ → RF

/-- The float predicate `isnan`. -/
def RF.isnan : RF → Bool
  | RF.nan => true
  | RF.fin _ => false

/-- IEEE multiplication restricted to the model: NaN propagates (in
particular `0 * NaN = NaN`), finite values multiply in `ℝ`. -/
noncomputable def RF.mul : RF → RF → RF
  | RF.nan, _ => RF.nan
  | RF.fin _, RF.nan => RF.nan
  | RF.fin a, RF.fin b => RF.fin (a * b)

/-- The C `log` as compiled by numba: NaN for NaN, `Real.log` on positive
reals; a non-positive argument gives a non-finite result, collapsed to NaN
here (no studied claim depends on distinguishing `-inf` from NaN). -/
noncomputable def RF.log : RF → RF
  | RF.nan => RF.nan
  | RF.fin r => if 0 < r then RF.fin (Real.log r) else RF.nan

/-- `xlogy(x, y)` from `spefit/common/basic.py`:
`if x == 0 and not isnan(y): return 0 else: return x * log(y)`. -/
noncomputable def xlogy (x y : RF) : RF :=
  if x = RF.fin 0 ∧ y.isnan = false then RF.fin 0 else x.mul y.log

end FM

/-- Real-number restriction of `xlogy(x, y)` from `spefit/common/basic.py`,
used inside the cost layer and the Poisson kernel where NaN payloads do not
arise: 0 when `x == 0`, otherwise `x * log(y)`. -/
noncomputable def xlogy (x y : ℝ) : ℝ :=
  if x = 0 then 0 else x * Real.log y

/-- `binom(n, k)` from `spefit/common/basic.py`:
`exp(lgamma(n + 1) - lgamma(k + 1) - lgamma(n - k + 1))`; for natural
arguments `lgamma (m + 1) = Real.log m!` exactly. -/
noncomputable def binom (n k : ℕ) : ℝ :=
  Real.exp (Real.log (Nat.factorial n) - Real.log (Nat.factorial k) -
    Real.log (Nat.factorial (n - k)))

/-- `poisson_logpmf(k, mu)` from `spefit/common/stats.py`:
`xlogy(k, mu) - lgamma(k + 1) - mu`. -/
noncomputable def poisson_logpmf (k : ℕ) (mu : ℝ) : ℝ :=
  xlogy k mu - Real.log (Nat.factorial k) - mu

/-- `poisson(k, mu)` from `spefit/common/stats.py`: `exp(poisson_logpmf)`. -/
noncomputable def poisson (k : ℕ) (mu : ℝ) : ℝ :=
  Real.exp (poisson_logpmf k mu)

/-- `normal_pdf(x, mean, std_deviation)` from `spefit/common/stats.py`. -/
noncomputable def normal_pdf (x mean std_deviation : ℝ) : ℝ :=
  Real.exp (-(1 / 2) * ((x - mean) / std_deviation) ^ 2) /
    (Real.sqrt (2 * Real.pi) * std_deviation)

/-- `generalized_poisson(k, mu, opct)` from
`spefit/pdf/sipm_generalized_poisson.py`:
`mu * exp((k - 1) * log(mu_dash) - mu_dash - lgamma(k + 1))` with
`mu_dash = mu + k * opct`. -/
noncomputable def generalized_poisson (k : ℕ) (mu opct : ℝ) : ℝ :=
  mu * Real.exp (((k : ℝ) - 1) * Real.log (mu + k * opct) - (mu + k * opct) -
    Real.log (Nat.factorial k))

/-- `modified_poisson(k, mu, opct)` from `spefit/pdf/sipm_modified_poisson.py`
(textually the same formula as `generalized_poisson`). -/
noncomputable def modified_poisson (k : ℕ) (mu opct : ℝ) : ℝ :=
  mu * Real.exp (((k : ℝ) - 1) * Real.log (mu + k * opct) - (mu + k * opct) -
    Real.log (Nat.factorial k))

/-- The weight-truncation loop shared verbatim by `pmt_single_gaussian`,
`sipm_generalized_poisson`, `sipm_mpoisson` and `sipm_gentile`:
for each `k`, with weight `p = w k`, the source runs
`if p > p_max: p_max = p` / `elif p < 1e-4: break`, then accumulates
`spectrum += p * g k`.  `fuel` counts the remaining loop iterations. -/
noncomputable def speLoop (w g : ℕ → ℝ) : ℕ → ℕ → ℝ → ℝ → ℝ
  | _, 0, _, spectrum => spectrum
  | k, fuel + 1, pMax, spectrum =>
    if pMax < w k then
      speLoop w g (k + 1) fuel (w k) (spectrum + w k * g k)
    else if w k < 1e-4 then
      spectrum
    else
      speLoop w g (k + 1) fuel pMax (spectrum + w k * g k)

/-- `pmt_single_gaussian` from `spefit/pdf/pmt_single_gaussian.py`, embedded
pointwise in `x`: pedestal `exp(-lambda_)` (or 0 when disabled) times the
pedestal Gaussian, then the truncation loop over `k in range(1, 100)` with
Poisson weights. -/
noncomputable def pmt_single_gaussian
    (x eped eped_sigma pe pe_sigma lambda_ : ℝ) (disable_pedestal : Bool) : ℝ :=
  speLoop (fun k => poisson k lambda_)
    (fun k => normal_pdf x (eped + k * pe)
      (Real.sqrt (k * pe_sigma ^ 2 + eped_sigma ^ 2)))
    1 99 0
    ((if disable_pedestal then 0 else Real.exp (-lambda_)) * normal_pdf x eped eped_sigma)

/-- `sipm_generalized_poisson` from `spefit/pdf/sipm_generalized_poisson.py`,
embedded pointwise in `x`: the spectrum starts at zero and the truncation
loop runs over `k in range(100)` (the pedestal is the `k = 0` component). -/
noncomputable def sipm_generalized_poisson
    (x pe0 pe0_sigma pe pe_sigma opct lambda_ : ℝ) : ℝ :=
  speLoop (fun k => generalized_poisson k lambda_ opct)
    (fun k => normal_pdf x (pe0 + k * pe)
      (Real.sqrt (k * pe_sigma ^ 2 + pe0_sigma ^ 2)))
    0 100 0 0

/-- `sipm_mpoisson` from `spefit/pdf/sipm_modified_poisson.py`, embedded
pointwise in `x`: explicit pedestal `exp(-lambda_)` (or 0 when disabled),
then the truncation loop over `k in range(1, 100)` with `modified_poisson`
weights. -/
noncomputable def sipm_mpoisson
    (x eped eped_sigma pe pe_sigma opct lambda_ : ℝ) (disable_pedestal : Bool) : ℝ :=
  speLoop (fun k => modified_poisson k lambda_ opct)
    (fun k => normal_pdf x (eped + k * pe)
      (Real.sqrt (k * pe_sigma ^ 2 + eped_sigma ^ 2)))
    1 99 0
    ((if disable_pedestal then 0 else Real.exp (-lambda_)) * normal_pdf x eped eped_sigma)

/-- The inner loop of `sipm_gentile` (`spefit/pdf/sipm_gentile.py`) computing
the weight `pk` of the `k`-th component: `for j in range(1, k + 1)`,
accumulate `pj * (1 - opct)**j * opct**(k - j) * binom(k - 1, j - 1)` with
`pj = poisson(j, lambda_)`, skipping (`continue`) any `j` with `pj < 1e-4`. -/
noncomputable def gentile_pk (lambda_ opct : ℝ) (k : ℕ) : ℝ :=
  (List.range k).foldl
    (fun pk jm =>
      if poisson (jm + 1) lambda_ < 1e-4 then pk
      else pk + poisson (jm + 1) lambda_ * (1 - opct) ^ (jm + 1) *
        opct ^ (k - (jm + 1)) * binom (k - 1) ((jm + 1) - 1))
    0

/-- `sipm_gentile` from `spefit/pdf/sipm_gentile.py`, embedded pointwise in
`x`: pedestal plus the truncation loop over `k in range(1, 100)` with the
Gentile crosstalk weights. -/
noncomputable def sipm_gentile
    (x eped eped_sigma pe pe_sigma opct lambda_ : ℝ) (disable_pedestal : Bool) : ℝ :=
  speLoop (gentile_pk lambda_ opct)
    (fun k => normal_pdf x (eped + k * pe)
      (Real.sqrt (k * pe_sigma ^ 2 + eped_sigma ^ 2)))
    1 99 0
    ((if disable_pedestal then 0 else Real.exp (-lambda_)) * normal_pdf x eped eped_sigma)

/-- Spec-side quantity for the truncation-policy claim: the running maximum
of the weights `w` over indices `[a, a + m)` of the loop, starting (as the
source's `p_max = 0` does) from 0. -/
noncomputable def runMaxAux (w : ℕ → ℝ) (a : ℕ) : ℕ → ℝ
  | 0 => 0
  | m + 1 => max (runMaxAux w a m) (w (a + m))

/-- Running maximum of the weights over `[a, k)`, floored at the source's
initial `p_max = 0`. -/
noncomputable def runMax (w : ℕ → ℝ) (a k : ℕ) : ℝ :=
  runMaxAux w a (k - a)

/-- The source's break condition at index `k` for a loop that started at
`a`: the weight does not exceed the running maximum (the `p > p_max` branch
is not taken) and is below the absolute floor `1e-4`. -/
def breakAt (w : ℕ → ℝ) (a k : ℕ) : Prop :=
  w k ≤ runMax w a k ∧ w k < 1e-4

/-- `ChargeContainer` (`spefit/container.py`) as consumed by the cost layer:
per illumination, the retained samples, the bin centers and the histogram
counts. -/
structure ChargeContainer where
  values : List ℝ
  between : List ℝ
  hist : List ℝ

/-- The state a `Cost` object (`spefit/cost.py`) closes over: the bound
density wrapper `__call__(x, parameters, i_illumination)` (opaque to the
cost layer), its expanded parameter dict (only the fixed flags are read,
through `n_free_parameters`), and one `ChargeContainer` per illumination. -/
structure CostSetup where
  pdfFun : List ℝ → List ℝ → ℕ → List ℝ
  pdfParams : List (String × PDFParameter)
  charges : List ChargeContainer

/-- `_sum_log_x(x)` from `spefit/cost.py`: `np.sum(np.log(x))`. -/
noncomputable def sum_log_x (x : List ℝ) : ℝ :=
  (x.map Real.log).sum

/-- `_bin_nll(f_y, d_y)` from `spefit/cost.py`:
`f_y if d_y == 0 else f_y - d_y - xlogy(d_y, f_y / d_y)`. -/
noncomputable def bin_nll (f_y d_y : ℝ) : ℝ :=
  if d_y = 0 then f_y else f_y - d_y - xlogy d_y (f_y / d_y)

/-- `_total_binned_nll(f_y, d_y)` from `spefit/cost.py`:
`scale = sum(d_y) / sum(f_y); sum(_bin_nll(f_y * scale, d_y))`. -/
noncomputable def total_binned_nll (f_y d_y : List ℝ) : ℝ :=
  (List.zipWith bin_nll (f_y.map (· * (d_y.sum / f_y.sum))) d_y).sum

/-- `_least_squares(f_y, d_y)` from `spefit/cost.py`: scale the prediction,
keep the bins with `d_y > 5`, and sum `(d_y - f_ys)**2 / d_y` over them. -/
noncomputable def least_squares (f_y d_y : List ℝ) : ℝ :=
  (((d_y.zip (f_y.map (· * (d_y.sum / f_y.sum)))).filter
      (fun q => decide (5 < q.1))).map
    (fun q => (q.1 - q.2) ^ 2 / q.1)).sum

/-- `UnbinnedNLL.__call__`: per illumination, minus the summed log density
at the retained sample values, accumulated over illuminations. -/
noncomputable def unbinnedNLL_call (c : CostSetup) (parameters : List ℝ) : ℝ :=
  (c.charges.enum.map
    (fun q => -sum_log_x (c.pdfFun q.2.values parameters q.1))).sum

/-- `UnbinnedNLL.dof`: total retained sample count minus the free-parameter
count. -/
def unbinnedNLL_dof (c : CostSetup) : ℤ :=
  ((c.charges.map (fun d => d.values.length)).sum : ℤ) -
    (nFreeParameters c.pdfParams : ℤ)

/-- `UnbinnedNLL.chi2`: `raise ValueError("Chi2 is not defined for
UnbinnedNLL")`, modeled as an `Except.error`. -/
def unbinnedNLL_chi2 (_c : CostSetup) (_parameters : List ℝ) : Except String ℝ :=
  Except.error "Chi2 is not defined for UnbinnedNLL"

/-- `Cost.reduced_chi2` for the unbinned variant: `chi2(parameters) / dof`;
the exception raised inside `chi2` propagates. -/
noncomputable def unbinnedNLL_reduced_chi2 (c : CostSetup) (parameters : List ℝ) :
    Except String ℝ :=
  (unbinnedNLL_chi2 c parameters).map (fun v => v / (unbinnedNLL_dof c : ℝ))

/-- `Cost.p_value` for the unbinned variant:
`distributions.chi2.sf(self.chi2(parameters), self.dof)` with the external
survival function `sf` passed abstractly; the exception raised inside
`chi2` propagates before `sf` is reached. -/
noncomputable def unbinnedNLL_p_value (sf : ℝ → ℤ → ℝ) (c : CostSetup)
    (parameters : List ℝ) : Except String ℝ :=
  (unbinnedNLL_chi2 c parameters).map (fun v => sf v (unbinnedNLL_dof c))

/-- `BinnedNLL.__call__`: accumulate `_total_binned_nll` of (density at the
bin centers, histogram) over illuminations. -/
noncomputable def binnedNLL_call (c : CostSetup) (parameters : List ℝ) : ℝ :=
  (c.charges.enum.map
    (fun q => total_binned_nll (c.pdfFun q.2.between parameters q.1) q.2.hist)).sum

/-- `BinnedNLL.chi2`: `self(parameters) * 2`. -/
noncomputable def binnedNLL_chi2 (c : CostSetup) (parameters : List ℝ) : ℝ :=
  binnedNLL_call c parameters * 2

/-- `BinnedNLL.dof`: total bin count minus the free-parameter count. -/
def binnedNLL_dof (c : CostSetup) : ℤ :=
  ((c.charges.map (fun d => d.hist.length)).sum : ℤ) -
    (nFreeParameters c.pdfParams : ℤ)

/-- `LeastSquares.__call__`: accumulate `_least_squares` of (density at the
bin centers, histogram) over illuminations. -/
noncomputable def leastSquares_call (c : CostSetup) (parameters : List ℝ) : ℝ :=
  (c.charges.enum.map
    (fun q => least_squares (c.pdfFun q.2.between parameters q.1) q.2.hist)).sum

/-- `LeastSquares.chi2`: `self(parameters)`. -/
noncomputable def leastSquares_chi2 (c : CostSetup) (parameters : List ℝ) : ℝ :=
  leastSquares_call c parameters

/-- `LeastSquares.dof`: `sum((d.hist > 5).sum() for d in charges)` minus the
free-parameter count. -/
noncomputable def leastSquares_dof (c : CostSetup) : ℤ :=
  ((c.charges.map (fun d => (d.hist.filter (fun y => decide (5 < y))).length)).sum : ℤ) -
    (nFreeParameters c.pdfParams : ℤ)

/-- Spec-modelled full Gentile weight, following the words of the claim:
the sum over `j = 1..k` of (Poisson PMF at `j` with mean `lambda_`) times
`(1 - opct)^j * opct^(k - j) * binom (k - 1) (j - 1)`, with no term
omitted.  Kept side by side with `gentile_pk` (translated from the source)
to compare the two. -/
noncomputable def gentile_pk_full (lambda_ opct : ℝ) (k : ℕ) : ℝ :=
  ∑ j ∈ Finset.Icc 1 k,
    poisson j lambda_ * (1 - opct) ^ j * opct ^ (k - j) * binom (k - 1) (j - 1)

/-- Concrete two-declaration parameter set (one shared, one multi), used to
instantiate the registry theorems: a pedestal-style shared parameter and a
multi illumination intensity, as in the PDF subclasses. -/
def psEx : List (String × PDFParameter) :=
  [("eped", ⟨0, (-2, 2), false, false⟩), ("lam", ⟨7 / 10, (0, 5), false, true⟩)]

/-- Expanded parameter dict of `psEx` for two illuminations. -/
def dEx : List (String × PDFParameter) :=
  (prepareParameters psEx 2).1

/-- Multi-flag map of `psEx` for two illuminations. -/
def imEx : List (String × Bool) :=
  (prepareParameters psEx 2).2.1

/-- A concrete attribute write: set the initial value to 5
(`update_parameters_initial(name=5)`). -/
def gEx : PDFParameter → PDFParameter :=
  fun p => ⟨5, p.limits, p.fixed, p.multi⟩

/-- A concrete charge container: histogram `[7, 5]`, one bin over the
least-squares threshold and one at it. -/
def chEx : ChargeContainer :=
  ⟨[], [], [(7 : ℝ), 5]⟩

/-- A concrete cost setup over `chEx` with a trivial density wrapper. -/
noncomputable def costEx : CostSetup :=
  ⟨fun x _ _ => x, [], [chEx]⟩

/-! ## Theorems -/

/-- C5 counterexample: the claim asserts `xlogy(0, y) = 0` for every `y`
including NaN, but the source's guard `x == 0 and not isnan(y)` sends
`y = NaN` to the product branch, where `0 * log(NaN) = NaN`. -/
theorem xlogy_zero_nan_is_nan :
    FM.xlogy (FM.RF.fin 0) FM.RF.nan ≠ FM.RF.fin 0 := by
  simp [FM.xlogy, FM.RF.isnan, FM.RF.mul, FM.RF.log]

/-- C5 (amended): `xlogy(0, y) = 0` for every `y` that is not NaN;
`xlogy(0, NaN) = NaN`; and for every `x != 0`, `xlogy(x, y) = x * log(y)`. -/
theorem xlogy_spec_amended (x y : FM.RF) :
    (y.isnan = false → FM.xlogy (FM.RF.fin 0) y = FM.RF.fin 0) ∧
    FM.xlogy (FM.RF.fin 0) FM.RF.nan = FM.RF.nan ∧
    (x ≠ FM.RF.fin 0 → FM.xlogy x y = x.mul y.log) := by
  refine ⟨fun hy => ?_, ?_, fun hx => ?_⟩
  · rw [FM.xlogy, if_pos ⟨rfl, hy⟩]
  · simp [FM.xlogy, FM.RF.isnan, FM.RF.mul, FM.RF.log]
  · rw [FM.xlogy, if_neg (fun h => hx h.1)]

/-- C5 witness: the amended statement applied at `x = 1`, `y = 2`. -/
theorem xlogy_spec_amended_witness :
    ((FM.RF.fin 2).isnan = false ∧ FM.RF.fin 1 ≠ FM.RF.fin 0) ∧
    FM.xlogy (FM.RF.fin 0) (FM.RF.fin 2) = FM.RF.fin 0 ∧
    FM.xlogy (FM.RF.fin 1) (FM.RF.fin 2) = (FM.RF.fin 1).mul (FM.RF.fin 2).log := by
  have hne : FM.RF.fin (1 : ℝ) ≠ FM.RF.fin 0 := by
    intro h
    rw [FM.RF.fin.injEq] at h
    norm_num at h
  exact ⟨⟨rfl, hne⟩, (xlogy_spec_amended (FM.RF.fin 1) (FM.RF.fin 2)).1 rfl,
    (xlogy_spec_amended (FM.RF.fin 1) (FM.RF.fin 2)).2.2 hne⟩

/-- C6: by construction, the binned negative log-likelihood's chi-square is
exactly twice the value of the cost call, and the least-squares chi-square
is exactly the value of the cost call. -/
theorem chi2_objective_relation (c : CostSetup) (parameters : List ℝ) :
    binnedNLL_chi2 c parameters = 2 * binnedNLL_call c parameters ∧
    leastSquares_chi2 c parameters = leastSquares_call c parameters := by
  exact ⟨mul_comm _ _, rfl⟩

/-- C6 witness: the relation at a concrete cost setup and parameter
vector. -/
theorem chi2_objective_relation_witness :
    binnedNLL_chi2 ⟨fun x _ _ => x, [], []⟩ [1] =
      2 * binnedNLL_call ⟨fun x _ _ => x, [], []⟩ [1] :=
  (chi2_objective_relation ⟨fun x _ _ => x, [], []⟩ [1]).1

/-- C8: the unbinned negative log-likelihood's `chi2` always fails with the
explicit `ValueError` (never a numeric value), and `reduced_chi2` and
`p_value`, which call `chi2` first, fail the same way. -/
theorem unbinned_chi2_always_errors (c : CostSetup) (parameters : List ℝ)
    (sf : ℝ → ℤ → ℝ) :
    unbinnedNLL_chi2 c parameters =
      Except.error "Chi2 is not defined for UnbinnedNLL" ∧
    (∀ v : ℝ, unbinnedNLL_reduced_chi2 c parameters ≠ Except.ok v) ∧
    (∀ v : ℝ, unbinnedNLL_p_value sf c parameters ≠ Except.ok v) := by
  refine ⟨rfl, fun v => ?_, fun v => ?_⟩
  · simp [unbinnedNLL_reduced_chi2, unbinnedNLL_chi2, Except.map]
  · simp [unbinnedNLL_p_value, unbinnedNLL_chi2, Except.map]

/-- C8 witness: the failure at a concrete cost setup, parameter vector and
survival function. -/
theorem unbinned_chi2_always_errors_witness :
    unbinnedNLL_p_value (fun _ _ => 0) ⟨fun x _ _ => x, [], []⟩ [1] ≠
      Except.ok 0 :=
  (unbinned_chi2_always_errors ⟨fun x _ _ => x, [], []⟩ [1] (fun _ _ => 0)).2.2 0

/-- Sum of an elementwise combination of two equal-length lists, re-read as
an indexed sum. -/
lemma sum_zipWith_eq (F : ℝ → ℝ → ℝ) :
    ∀ (f d : List ℝ), f.length = d.length →
      (List.zipWith F f d).sum =
        ∑ i ∈ Finset.range d.length, F (f.getD i 0) (d.getD i 0)
  | [], [], _ => by simp
  | [], _ :: _, h => by simp at h
  | _ :: _, [], h => by simp at h
  | a :: f, b :: d, h => by
    have hl : f.length = d.length := by simpa using h
    have ih := sum_zipWith_eq F f d hl
    simp only [List.zipWith_cons_cons, List.sum_cons, List.length_cons]
    rw [Finset.sum_range_succ']
    simp only [List.getD_cons_succ, List.getD_cons_zero]
    rw [ih]
    ring

/-- Reading an entry of a rescaled list: the default 0 also rescales to 0,
so no index bound is needed. -/
lemma getD_map_mul (s : ℝ) :
    ∀ (f : List ℝ) (i : ℕ), (f.map (· * s)).getD i 0 = f.getD i 0 * s
  | [], i => by simp
  | _ :: _, 0 => by simp
  | _ :: f, i + 1 => by
    simp only [List.map_cons, List.getD_cons_succ]
    exact getD_map_mul s f i

/-- C2: the binned negative log-likelihood contribution of one illumination
is the sum over bins of the likelihood-ratio term evaluated on the scaled
prediction `f * scale` with `scale = Σ observed / Σ predicted`: the scaled
predicted value when the observed count is 0, otherwise
`predicted - observed - xlogy(observed, predicted / observed)`. -/
theorem binned_nll_per_bin_sum (f_y d_y : List ℝ) (h : f_y.length = d_y.length) :
    total_binned_nll f_y d_y =
      ∑ i ∈ Finset.range d_y.length,
        if d_y.getD i 0 = 0 then f_y.getD i 0 * (d_y.sum / f_y.sum)
        else f_y.getD i 0 * (d_y.sum / f_y.sum) - d_y.getD i 0 -
          xlogy (d_y.getD i 0) (f_y.getD i 0 * (d_y.sum / f_y.sum) / d_y.getD i 0) := by
  unfold total_binned_nll
  rw [sum_zipWith_eq bin_nll _ _ (by simpa using h)]
  refine Finset.sum_congr rfl fun i _ => ?_
  rw [getD_map_mul]
  rfl

/-- C2 witness: the per-bin characterization at a concrete histogram with a
zero-count bin and a non-zero-count bin. -/
theorem binned_nll_per_bin_sum_witness :
    ([(1 : ℝ), 1].length = [(0 : ℝ), 4].length) ∧
      total_binned_nll [(1 : ℝ), 1] [(0 : ℝ), 4] =
        ∑ i ∈ Finset.range [(0 : ℝ), 4].length,
          if [(0 : ℝ), 4].getD i 0 = 0 then
            [(1 : ℝ), 1].getD i 0 * ([(0 : ℝ), 4].sum / [(1 : ℝ), 1].sum)
          else
            [(1 : ℝ), 1].getD i 0 * ([(0 : ℝ), 4].sum / [(1 : ℝ), 1].sum) -
              [(0 : ℝ), 4].getD i 0 -
              xlogy ([(0 : ℝ), 4].getD i 0)
                ([(1 : ℝ), 1].getD i 0 * ([(0 : ℝ), 4].sum / [(1 : ℝ), 1].sum) /
                  [(0 : ℝ), 4].getD i 0) :=
  ⟨rfl, binned_nll_per_bin_sum [1, 1] [0, 4] rfl⟩

/-- Sum over the threshold-filtered zip of (observed, scaled-predicted)
pairs, re-read as an indexed sum guarded by the threshold. -/
lemma sum_filter_zip_eq :
    ∀ (d f : List ℝ), d.length = f.length →
      (((d.zip f).filter (fun q => decide (5 < q.1))).map
          (fun q => (q.1 - q.2) ^ 2 / q.1)).sum =
        ∑ i ∈ Finset.range d.length,
          if 5 < d.getD i 0 then (d.getD i 0 - f.getD i 0) ^ 2 / d.getD i 0 else 0
  | [], [], _ => by simp
  | [], _ :: _, h => by simp at h
  | _ :: _, [], h => by simp at h
  | b :: d, a :: f, h => by
    have hl : d.length = f.length := by simpa using h
    have ih := sum_filter_zip_eq d f hl
    simp only [List.zip_cons_cons, List.length_cons]
    rw [Finset.sum_range_succ']
    simp only [List.getD_cons_succ, List.getD_cons_zero]
    by_cases h5 : (5 : ℝ) < b
    · rw [List.filter_cons_of_pos (by simpa using h5)]
      simp only [List.map_cons, List.sum_cons]
      rw [ih, if_pos h5]
      ring
    · rw [List.filter_cons_of_neg (by simpa using h5)]
      rw [ih, if_neg h5]
      ring

/-- Number of over-threshold entries of a list, re-read as the cardinality
of the over-threshold index set. -/
lemma length_filter_gt5 :
    ∀ l : List ℝ,
      (l.filter (fun y => decide (5 < y))).length =
        ((Finset.range l.length).filter (fun i => 5 < l.getD i 0)).card
  | [] => by simp
  | a :: l => by
    rw [Finset.card_filter, List.length_cons, Finset.sum_range_succ']
    simp only [List.getD_cons_succ, List.getD_cons_zero]
    rw [← Finset.card_filter, ← length_filter_gt5 l]
    by_cases h5 : (5 : ℝ) < a
    · rw [List.filter_cons_of_pos (by simpa using h5), if_pos h5, List.length_cons]
    · rw [List.filter_cons_of_neg (by simpa using h5), if_neg h5, add_zero]

/-- C7: in the least-squares cost, a bin contributes `(observed -
scaled_predicted)^2 / observed` exactly when its observed count strictly
exceeds 5 (the sum ranges over the index set filtered by `5 < observed`),
and the degrees of freedom are the number of bins over all illuminations
whose observed count strictly exceeds 5, minus the free-parameter count. -/
theorem least_squares_threshold_and_dof (f_y d_y : List ℝ) (c : CostSetup)
    (h : d_y.length = f_y.length) :
    least_squares f_y d_y =
      (∑ i ∈ (Finset.range d_y.length).filter (fun i => 5 < d_y.getD i 0),
        (d_y.getD i 0 - f_y.getD i 0 * (d_y.sum / f_y.sum)) ^ 2 / d_y.getD i 0) ∧
    leastSquares_dof c =
      ((c.charges.map (fun ch =>
          ((Finset.range ch.hist.length).filter
            (fun i => 5 < ch.hist.getD i 0)).card)).sum : ℤ) -
        (nFreeParameters c.pdfParams : ℤ) := by
  constructor
  · unfold least_squares
    rw [sum_filter_zip_eq d_y _ (by simpa using h), Finset.sum_filter]
    refine Finset.sum_congr rfl fun i _ => ?_
    rw [getD_map_mul]
  · unfold leastSquares_dof
    have hc : ∀ ch : ChargeContainer,
        ((ch.hist.filter (fun y => decide (5 < y))).length : ℤ) =
          (((Finset.range ch.hist.length).filter
            (fun i => 5 < ch.hist.getD i 0)).card : ℤ) :=
      fun ch => by exact_mod_cast length_filter_gt5 ch.hist
    rw [List.map_congr_left fun ch _ => hc ch, Nat.cast_list_sum, List.map_map]
    rfl

/-- C7 witness: the characterization at a concrete histogram with one bin
over threshold and one at the boundary (excluded), and a concrete cost
setup. -/
theorem least_squares_threshold_and_dof_witness :
    ([(7 : ℝ), 5].length = [(1 : ℝ), 1].length) ∧
      (least_squares [(1 : ℝ), 1] [(7 : ℝ), 5] =
        (∑ i ∈ (Finset.range [(7 : ℝ), 5].length).filter
            (fun i => 5 < [(7 : ℝ), 5].getD i 0),
          ([(7 : ℝ), 5].getD i 0 -
              [(1 : ℝ), 1].getD i 0 * ([(7 : ℝ), 5].sum / [(1 : ℝ), 1].sum)) ^ 2 /
            [(7 : ℝ), 5].getD i 0) ∧
      leastSquares_dof costEx =
        ((costEx.charges.map (fun ch =>
            ((Finset.range ch.hist.length).filter
              (fun i => 5 < ch.hist.getD i 0)).card)).sum : ℤ) -
          (nFreeParameters costEx.pdfParams : ℤ)) :=
  ⟨rfl, least_squares_threshold_and_dof [1, 1] [7, 5] costEx rfl⟩

/-- Entry `i` of a map over `List.range n`, for `i < n`. -/
lemma getD_map_range {α : Type} (f : ℕ → α) (dflt : α) :
    ∀ (n i : ℕ), i < n → ((List.range n).map f).getD i dflt = f i
  | 0, i, h => absurd h (Nat.not_lt_zero i)
  | n + 1, 0, _ => by
    rw [List.range_succ_eq_map, List.map_cons, List.getD_cons_zero]
  | n + 1, i + 1, h => by
    rw [List.range_succ_eq_map, List.map_cons, List.getD_cons_succ, List.map_map]
    exact getD_map_range (f ∘ Nat.succ) dflt n i (Nat.lt_of_succ_lt_succ h)

/-- The offset of the first expanded entry is 0. -/
lemma declOffset_zero (ps : List (String × PDFParameter)) (n : ℕ) :
    declOffset ps n 0 = 0 := rfl

/-- Offsets after a leading declaration shift by the slot count that
declaration consumes. -/
lemma declOffset_cons_succ (q : String × PDFParameter)
    (ps : List (String × PDFParameter)) (n j : ℕ) :
    declOffset (q :: ps) n (j + 1) = (if q.2.multi then n else 1) + declOffset ps n j := by
  simp [declOffset, List.take_succ_cons]

/-- Invariant of the `_prepare_parameters` recursion: started at flat offset
`s`, it produces the spec-side expansion of the declarations, the per-base
multi-flag map, and, for each declared parameter `j`, the lookup column
whose entry for illumination `i` is `s` plus the parameter's base offset,
plus `i` exactly when the declaration is multi. -/
lemma prepareParametersAux_spec (n : ℕ) :
    ∀ (ps : List (String × PDFParameter)) (s : ℕ),
      (prepareParametersAux n ps s).1 = expandedParams ps n ∧
      (prepareParametersAux n ps s).2.1 = ps.map (fun q => (q.1, q.2.multi)) ∧
      (prepareParametersAux n ps s).2.2 =
        (List.range ps.length).map (fun j =>
          (List.range n).map (fun i =>
            s + declOffset ps n j + if (ps.getD j default).2.multi then i else 0))
  | [], s => by
    simp [prepareParametersAux, expandedParams]
  | (name, param) :: ps, s => by
    rcases hm : param.multi with _ | _
    · obtain ⟨ih1, ih2, ih3⟩ := prepareParametersAux_spec n ps (s + 1)
      refine ⟨?_, ?_, ?_⟩
      · simp only [prepareParametersAux, hm, Bool.false_eq_true, if_false]
        rw [ih1]
        simp [expandedParams, hm]
      · simp only [prepareParametersAux, hm, Bool.false_eq_true, if_false]
        rw [ih2, List.map_cons]
        simp [hm]
      · simp only [prepareParametersAux, hm, Bool.false_eq_true, if_false]
        rw [ih3, List.length_cons, List.range_succ_eq_map, List.map_cons, List.map_map]
        congr 1
        · refine (List.map_congr_left fun i _ => ?_).symm
          simp [declOffset_zero, hm]
        · refine (List.map_congr_left fun j _ => ?_).symm
          simp only [Function.comp, List.getD_cons_succ]
          refine (List.map_congr_left fun i _ => ?_).symm
          rw [declOffset_cons_succ, hm]
          simp only [Bool.false_eq_true, if_false]
          by_cases hj : (ps.getD j default).2.multi
          · rw [if_pos hj]
            omega
          · rw [if_neg hj]
            omega
    · obtain ⟨ih1, ih2, ih3⟩ := prepareParametersAux_spec n ps (s + n)
      refine ⟨?_, ?_, ?_⟩
      · simp only [prepareParametersAux, hm, if_true]
        rw [ih1]
        simp [expandedParams, hm]
      · simp only [prepareParametersAux, hm, if_true]
        rw [ih2, List.map_cons]
        simp [hm]
      · simp only [prepareParametersAux, hm, if_true]
        rw [ih3, List.length_cons, List.range_succ_eq_map, List.map_cons, List.map_map]
        congr 1
        · refine (List.map_congr_left fun i _ => ?_).symm
          simp [declOffset_zero, hm]
        · refine (List.map_congr_left fun j _ => ?_).symm
          simp only [Function.comp, List.getD_cons_succ]
          refine (List.map_congr_left fun i _ => ?_).symm
          rw [declOffset_cons_succ, hm]
          simp only [if_true]
          by_cases hj : (ps.getD j default).2.multi
          · rw [if_pos hj]
            omega
          · rw [if_neg hj]
            omega

/-- The entry of the expanded dict sitting at the offset recorded in the
lookup table is declaration `j`'s single entry when non-multi, and its
`i`-th illumination-suffixed replica when multi. -/
lemma expandedParams_getD (n : ℕ) :
    ∀ (ps : List (String × PDFParameter)) (j : ℕ), j < ps.length → ∀ i, i < n →
      (expandedParams ps n).getD
          (declOffset ps n j + if (ps.getD j default).2.multi then i else 0) default =
        if (ps.getD j default).2.multi then
          ((ps.getD j default).1 ++ toString i, (ps.getD j default).2)
        else ps.getD j default
  | [], j, hj, _, _ => absurd hj (by simp)
  | (name, param) :: ps, 0, _, i, hi => by
    rcases hm : param.multi with _ | _
    · simp [expandedParams, hm, declOffset_zero]
    · simp only [expandedParams, List.flatMap_cons, List.getD_cons_zero, hm, if_true,
        declOffset_zero, zero_add]
      rw [List.getD_append _ _ _ _ (by simpa using hi)]
      rw [getD_map_range _ _ n i hi]
  | (name, param) :: ps, j + 1, hj, i, hi => by
    have hj' : j < ps.length := by simpa using Nat.lt_of_succ_lt_succ hj
    have ih := expandedParams_getD n ps j hj' i hi
    rcases hm : param.multi with _ | _
    · simp only [expandedParams, List.flatMap_cons, hm, Bool.false_eq_true, if_false,
        List.getD_cons_succ, List.singleton_append]
      rw [declOffset_cons_succ, hm]
      simp only [Bool.false_eq_true, if_false]
      rw [show 1 + declOffset ps n j + (if (ps.getD j default).2.multi then i else 0) =
        (declOffset ps n j + (if (ps.getD j default).2.multi then i else 0)) + 1 from by
          omega]
      rw [List.getD_cons_succ]
      exact ih
    · simp only [expandedParams, List.flatMap_cons, hm, if_true, List.getD_cons_succ]
      rw [declOffset_cons_succ, hm]
      simp only [if_true]
      rw [List.getD_append_right _ _ _ _
        (by simp only [List.length_map, List.length_range]; omega)]
      rw [show n + declOffset ps n j + (if (ps.getD j default).2.multi then i else 0) -
        ((List.range n).map (fun i => (name ++ toString i, param))).length =
          declOffset ps n j + (if (ps.getD j default).2.multi then i else 0) from by
            simp only [List.length_map, List.length_range]; omega]
      exact ih

/-- C1: `_prepare_parameters` expands each multi declaration into `n`
entries (name suffixed by the illumination index `0..n-1`) and each
non-multi declaration into exactly one entry; row `i`, column `j` of the
lookup table holds the flat-vector offset of declaration `j`'s single entry
when non-multi, and of its `i`-th replica when multi (the entry of the
expanded dict at that offset is that very entry); and `_lookup_parameters`
applied for illumination `i` selects exactly the values at those offsets
from the flat parameter vector. -/
theorem parameter_expansion_and_lookup (ps : List (String × PDFParameter)) (n : ℕ) :
    (prepareParameters ps n).1 = expandedParams ps n ∧
    (∀ j, j < ps.length → ∀ i, i < n →
      (((prepareParameters ps n).2.2).getD j []).getD i 0 =
        declOffset ps n j + if (ps.getD j default).2.multi then i else 0) ∧
    (∀ j, j < ps.length → ∀ i, i < n →
      (expandedParams ps n).getD
          (declOffset ps n j + if (ps.getD j default).2.multi then i else 0) default =
        if (ps.getD j default).2.multi then
          ((ps.getD j default).1 ++ toString i, (ps.getD j default).2)
        else ps.getD j default) ∧
    (∀ i, i < n → ∀ v : List ℚ,
      lookupParameters (prepareParameters ps n).2.2 v i =
        (List.range ps.length).map (fun j =>
          v.getD (declOffset ps n j + if (ps.getD j default).2.multi then i else 0) 0)) := by
  obtain ⟨h1, _h2, h3⟩ := prepareParametersAux_spec n ps 0
  refine ⟨h1, ?_, fun j hj i hi => expandedParams_getD n ps j hj i hi, ?_⟩
  · intro j hj i hi
    rw [prepareParameters, h3, getD_map_range _ _ _ j hj, getD_map_range _ _ _ i hi,
      zero_add]
  · intro i hi v
    rw [prepareParameters, h3]
    unfold lookupParameters
    rw [List.map_map, List.map_map]
    refine List.map_congr_left fun j _ => ?_
    simp only [Function.comp]
    rw [getD_map_range _ _ _ i hi, zero_add]

/-- C1 witness: the lookup characterization for the multi declaration of
the concrete two-declaration model at illumination 1. -/
theorem parameter_expansion_and_lookup_witness :
    (1 < psEx.length ∧ 1 < 2) ∧
      (((prepareParameters psEx 2).2.2).getD 1 []).getD 1 0 =
        declOffset psEx 2 1 + if (psEx.getD 1 default).2.multi then 1 else 0 :=
  ⟨⟨by decide, by decide⟩,
    (parameter_expansion_and_lookup psEx 2).2.1 1 (by decide) 1 (by decide)⟩

/-- Updating the entry named `name` rewrites exactly that entry through
`g`. -/
lemma dictLookup_setAttrAt_self (g : PDFParameter → PDFParameter) (name : String) :
    ∀ d : List (String × PDFParameter),
      dictLookup (setAttrAt d name g) name = (dictLookup d name).map g
  | [] => rfl
  | q :: d => by
    by_cases hq : q.1 = name
    · simp [setAttrAt, dictLookup, hq]
    · simp only [setAttrAt, List.map_cons, if_neg hq]
      rw [dictLookup, if_neg hq, dictLookup, if_neg hq]
      exact dictLookup_setAttrAt_self g name d

/-- Updating the entry named `name` leaves every other key's binding
untouched. -/
lemma dictLookup_setAttrAt_ne (g : PDFParameter → PDFParameter) (k name : String)
    (hk : k ≠ name) :
    ∀ d : List (String × PDFParameter),
      dictLookup (setAttrAt d name g) k = dictLookup d k
  | [] => rfl
  | q :: d => by
    by_cases hq : q.1 = name
    · have hqk : ¬ q.1 = k := fun h => hk (h ▸ hq)
      simp only [setAttrAt, List.map_cons, if_pos hq]
      rw [dictLookup, if_neg hqk, dictLookup, if_neg hqk]
      exact dictLookup_setAttrAt_ne g k name hk d
    · simp only [setAttrAt, List.map_cons, if_neg hq]
      by_cases hqk : q.1 = k
      · rw [dictLookup, if_pos hqk, dictLookup, if_pos hqk]
      · rw [dictLookup, if_neg hqk, dictLookup, if_neg hqk]
        exact dictLookup_setAttrAt_ne g k name hk d

/-- The replica-update fold leaves any key distinct from every suffixed
name untouched. -/
lemma foldl_setAttr_frame (g : PDFParameter → PDFParameter) (name k : String) :
    ∀ (n : ℕ) (d : List (String × PDFParameter)),
      (∀ i, i < n → k ≠ name ++ toString i) →
      dictLookup ((List.range n).foldl
          (fun acc i => setAttrAt acc (name ++ toString i) g) d) k =
        dictLookup d k
  | 0, _, _ => rfl
  | n + 1, d, h => by
    rw [List.range_succ, List.foldl_append, List.foldl_cons, List.foldl_nil]
    rw [dictLookup_setAttrAt_ne g k _ (h n (Nat.lt_succ_self n))]
    exact foldl_setAttr_frame g name k n d fun i hi => h i (Nat.lt_succ_of_lt hi)

/-- When the suffixed names are pairwise distinct, the replica-update fold
rewrites the binding of each suffixed name through `g`. -/
lemma foldl_setAttr_get (g : PDFParameter → PDFParameter) (name : String) :
    ∀ (n : ℕ) (d : List (String × PDFParameter)) (i : ℕ), i < n →
      (∀ a b, a < n → b < n → a ≠ b → name ++ toString a ≠ name ++ toString b) →
      dictLookup ((List.range n).foldl
          (fun acc j => setAttrAt acc (name ++ toString j) g) d)
        (name ++ toString i) =
        (dictLookup d (name ++ toString i)).map g
  | 0, _, i, hi, _ => absurd hi (Nat.not_lt_zero i)
  | n + 1, d, i, hi, hne => by
    rw [List.range_succ, List.foldl_append, List.foldl_cons, List.foldl_nil]
    by_cases hin : i = n
    · subst hin
      rw [dictLookup_setAttrAt_self]
      rw [foldl_setAttr_frame g name _ i d fun j hj =>
        hne i j (Nat.lt_succ_self i) (Nat.lt_succ_of_lt hj) (by omega)]
    · have hi' : i < n := by omega
      rw [dictLookup_setAttrAt_ne g _ _
        (hne i n (by omega) (Nat.lt_succ_self n) hin)]
      exact foldl_setAttr_get g name n d i hi' fun a b ha hb hab =>
        hne a b (by omega) (by omega) hab

/-- C9: `_update_parameter` keyed by an expanded-entry name rewrites only
that entry (every other key's binding is unchanged); keyed by a multi base
name it rewrites exactly the `n` illumination-suffixed replicas; and keyed
by a name that is neither fails with the error naming the offending key. -/
theorem update_parameter_frame (d : List (String × PDFParameter))
    (im : List (String × Bool)) (n : ℕ) (g : PDFParameter → PDFParameter)
    (name : String) :
    ((dictLookup d name).isSome = true →
      updateParameter d im n g name = Except.ok (setAttrAt d name g) ∧
      dictLookup (setAttrAt d name g) name = (dictLookup d name).map g ∧
      (∀ k, k ≠ name → dictLookup (setAttrAt d name g) k = dictLookup d k)) ∧
    (dictLookup d name = none → (dictLookup im name).getD false = true →
      updateParameter d im n g name = Except.ok ((List.range n).foldl
        (fun acc i => setAttrAt acc (name ++ toString i) g) d) ∧
      (∀ k, (∀ i, i < n → k ≠ name ++ toString i) →
        dictLookup ((List.range n).foldl
          (fun acc i => setAttrAt acc (name ++ toString i) g) d) k =
          dictLookup d k) ∧
      ((∀ a b, a < n → b < n → a ≠ b → name ++ toString a ≠ name ++ toString b) →
        ∀ i, i < n →
          dictLookup ((List.range n).foldl
            (fun acc j => setAttrAt acc (name ++ toString j) g) d)
            (name ++ toString i) =
            (dictLookup d (name ++ toString i)).map g)) ∧
    (dictLookup d name = none → (dictLookup im name).getD false = false →
      updateParameter d im n g name =
        Except.error ("No parameter named " ++ name ++ " in PDF")) := by
  refine ⟨fun hs => ⟨?_, dictLookup_setAttrAt_self g name d,
      fun k hk => dictLookup_setAttrAt_ne g k name hk d⟩,
    fun hn hm => ⟨?_, fun k hk => foldl_setAttr_frame g name k n d hk,
      fun hne i hi => foldl_setAttr_get g name n d i hi hne⟩,
    fun hn hm => ?_⟩
  · rw [updateParameter, if_pos hs]
  · rw [updateParameter, if_neg (by rw [hn]; simp), if_pos hm]
  · rw [updateParameter, if_neg (by rw [hn]; simp), if_neg (by rw [hm]; simp)]

/-- C9 witness: in the prepared two-illumination model, updating the
replica `lam1` succeeds and leaves the binding of `lam0` (and of the shared
`eped`) unchanged. -/
theorem update_parameter_frame_witness :
    ((dictLookup dEx "lam1").isSome = true ∧ "lam0" ≠ "lam1") ∧
      updateParameter dEx imEx 2 gEx "lam1" = Except.ok (setAttrAt dEx "lam1" gEx) ∧
      dictLookup (setAttrAt dEx "lam1" gEx) "lam0" = dictLookup dEx "lam0" := by
  have h := (update_parameter_frame dEx imEx 2 gEx "lam1").1 (by decide)
  exact ⟨⟨by decide, by decide⟩, h.1, h.2.2 "lam0" (by decide)⟩

/-- The truncation loop with no fuel returns the accumulated spectrum. -/
lemma speLoop_zero (w g : ℕ → ℝ) (k : ℕ) (pMax spectrum : ℝ) :
    speLoop w g k 0 pMax spectrum = spectrum := rfl

/-- One iteration of the truncation loop. -/
lemma speLoop_succ (w g : ℕ → ℝ) (k fuel : ℕ) (pMax spectrum : ℝ) :
    speLoop w g k (fuel + 1) pMax spectrum =
      if pMax < w k then speLoop w g (k + 1) fuel (w k) (spectrum + w k * g k)
      else if w k < 1e-4 then spectrum
      else speLoop w g (k + 1) fuel pMax (spectrum + w k * g k) := rfl

/-- The running maximum over an empty prefix is the initial `p_max = 0`. -/
lemma runMax_self (w : ℕ → ℝ) (a : ℕ) : runMax w a a = 0 := by
  simp [runMax, runMaxAux]

/-- Extending the running maximum by one weight. -/
lemma runMax_succ (w : ℕ → ℝ) (a k : ℕ) (h : a ≤ k) :
    runMax w a (k + 1) = max (runMax w a k) (w k) := by
  unfold runMax
  rw [show k + 1 - a = (k - a) + 1 from by omega]
  show max (runMaxAux w a (k - a)) (w (a + (k - a))) = _
  rw [show a + (k - a) = k from by omega]

/-- Invariant of the truncation loop: started at index `k` with the running
maximum of the weights over `[a, k)`, it stops at the first index `s` where
the source's break condition holds (or when the fuel runs out), having added
exactly the components with indices in `[k, s)`. -/
lemma speLoop_spec (w g : ℕ → ℝ) (a : ℕ) :
    ∀ (fuel k : ℕ) (acc : ℝ), a ≤ k →
      ∃ s, k ≤ s ∧ s ≤ k + fuel ∧
        (∀ j, k ≤ j → j < s → ¬ breakAt w a j) ∧
        (s < k + fuel → breakAt w a s) ∧
        speLoop w g k fuel (runMax w a k) acc =
          acc + ∑ j ∈ Finset.Ico k s, w j * g j
  | 0, k, acc, _ =>
    ⟨k, le_refl k, by omega, fun j h1 h2 => absurd h2 (by omega),
      fun h => absurd h (by omega),
      by rw [speLoop_zero, Finset.Ico_self, Finset.sum_empty, add_zero]⟩
  | fuel + 1, k, acc, hak => by
    rw [speLoop_succ]
    by_cases h1 : runMax w a k < w k
    · rw [if_pos h1]
      have hmax : runMax w a (k + 1) = w k := by
        rw [runMax_succ w a k hak]
        exact max_eq_right h1.le
      obtain ⟨s, hks, hsb, hnb, hbr, heq⟩ :=
        speLoop_spec w g a fuel (k + 1) (acc + w k * g k) (by omega)
      rw [hmax] at heq
      refine ⟨s, by omega, by omega, ?_, fun hs => hbr (by omega), ?_⟩
      · intro j hj1 hj2
        rcases eq_or_lt_of_le hj1 with hj | hj
        · subst hj
          exact fun hb => absurd hb.1 (not_le.mpr h1)
        · exact hnb j hj hj2
      · rw [heq, Finset.sum_eq_sum_Ico_succ_bot (by omega : k < s)]
        ring
    · rw [if_neg h1]
      by_cases h2 : w k < 1e-4
      · rw [if_pos h2]
        exact ⟨k, le_refl k, by omega, fun j hj1 hj2 => absurd hj2 (by omega),
          fun _ => ⟨not_lt.mp h1, h2⟩,
          by rw [Finset.Ico_self, Finset.sum_empty, add_zero]⟩
      · rw [if_neg h2]
        have hmax : runMax w a (k + 1) = runMax w a k := by
          rw [runMax_succ w a k hak]
          exact max_eq_left (not_lt.mp h1)
        obtain ⟨s, hks, hsb, hnb, hbr, heq⟩ :=
          speLoop_spec w g a fuel (k + 1) (acc + w k * g k) (by omega)
        rw [hmax] at heq
        refine ⟨s, by omega, by omega, ?_, fun hs => hbr (by omega), ?_⟩
        · intro j hj1 hj2
          rcases eq_or_lt_of_le hj1 with hj | hj
          · subst hj
            exact fun hb => absurd hb.2 h2
          · exact hnb j hj hj2
        · rw [heq, Finset.sum_eq_sum_Ico_succ_bot (by omega : k < s)]
          ring

/-- C3: each mixture-density variant iterates `k` upward, tracks the
running maximum of the weights, stops at the first index whose weight both
fails to exceed the running maximum and lies below the floor `1e-4`
(`breakAt`), and otherwise stops at the loop bound 100; only the components
before the stopping index contribute to the returned spectrum. -/
theorem truncation_policy (x eped eped_sigma pe pe_sigma opct lambda_ : ℝ)
    (disable_pedestal : Bool) :
    (∃ s, 1 ≤ s ∧ s ≤ 100 ∧
      (∀ j, 1 ≤ j → j < s → ¬ breakAt (fun k => poisson k lambda_) 1 j) ∧
      (s < 100 → breakAt (fun k => poisson k lambda_) 1 s) ∧
      pmt_single_gaussian x eped eped_sigma pe pe_sigma lambda_ disable_pedestal =
        (if disable_pedestal then 0 else Real.exp (-lambda_)) *
            normal_pdf x eped eped_sigma +
          ∑ j ∈ Finset.Ico 1 s, poisson j lambda_ *
            normal_pdf x (eped + j * pe)
              (Real.sqrt (j * pe_sigma ^ 2 + eped_sigma ^ 2))) ∧
    (∃ s, s ≤ 100 ∧
      (∀ j, j < s → ¬ breakAt (fun k => generalized_poisson k lambda_ opct) 0 j) ∧
      (s < 100 → breakAt (fun k => generalized_poisson k lambda_ opct) 0 s) ∧
      sipm_generalized_poisson x eped eped_sigma pe pe_sigma opct lambda_ =
        ∑ j ∈ Finset.Ico 0 s, generalized_poisson j lambda_ opct *
          normal_pdf x (eped + j * pe)
            (Real.sqrt (j * pe_sigma ^ 2 + eped_sigma ^ 2))) ∧
    (∃ s, 1 ≤ s ∧ s ≤ 100 ∧
      (∀ j, 1 ≤ j → j < s → ¬ breakAt (fun k => modified_poisson k lambda_ opct) 1 j) ∧
      (s < 100 → breakAt (fun k => modified_poisson k lambda_ opct) 1 s) ∧
      sipm_mpoisson x eped eped_sigma pe pe_sigma opct lambda_ disable_pedestal =
        (if disable_pedestal then 0 else Real.exp (-lambda_)) *
            normal_pdf x eped eped_sigma +
          ∑ j ∈ Finset.Ico 1 s, modified_poisson j lambda_ opct *
            normal_pdf x (eped + j * pe)
              (Real.sqrt (j * pe_sigma ^ 2 + eped_sigma ^ 2))) ∧
    (∃ s, 1 ≤ s ∧ s ≤ 100 ∧
      (∀ j, 1 ≤ j → j < s → ¬ breakAt (gentile_pk lambda_ opct) 1 j) ∧
      (s < 100 → breakAt (gentile_pk lambda_ opct) 1 s) ∧
      sipm_gentile x eped eped_sigma pe pe_sigma opct lambda_ disable_pedestal =
        (if disable_pedestal then 0 else Real.exp (-lambda_)) *
            normal_pdf x eped eped_sigma +
          ∑ j ∈ Finset.Ico 1 s, gentile_pk lambda_ opct j *
            normal_pdf x (eped + j * pe)
              (Real.sqrt (j * pe_sigma ^ 2 + eped_sigma ^ 2))) := by
  refine ⟨?_, ?_, ?_, ?_⟩
  · obtain ⟨s, h1, h2, h3, h4, h5⟩ :=
      speLoop_spec (fun k => poisson k lambda_)
        (fun k => normal_pdf x (eped + k * pe)
          (Real.sqrt (k * pe_sigma ^ 2 + eped_sigma ^ 2))) 1 99 1
        ((if disable_pedestal then 0 else Real.exp (-lambda_)) *
          normal_pdf x eped eped_sigma) (le_refl 1)
    rw [runMax_self] at h5
    exact ⟨s, h1, by omega, h3, fun hs => h4 (by omega), h5⟩
  · obtain ⟨s, h1, h2, h3, h4, h5⟩ :=
      speLoop_spec (fun k => generalized_poisson k lambda_ opct)
        (fun k => normal_pdf x (eped + k * pe)
          (Real.sqrt (k * pe_sigma ^ 2 + eped_sigma ^ 2))) 0 100 0 0 (le_refl 0)
    rw [runMax_self] at h5
    rw [zero_add] at h5
    exact ⟨s, by omega, fun j hj => h3 j (Nat.zero_le j) hj,
      fun hs => h4 (by omega), h5⟩
  · obtain ⟨s, h1, h2, h3, h4, h5⟩ :=
      speLoop_spec (fun k => modified_poisson k lambda_ opct)
        (fun k => normal_pdf x (eped + k * pe)
          (Real.sqrt (k * pe_sigma ^ 2 + eped_sigma ^ 2))) 1 99 1
        ((if disable_pedestal then 0 else Real.exp (-lambda_)) *
          normal_pdf x eped eped_sigma) (le_refl 1)
    rw [runMax_self] at h5
    exact ⟨s, h1, by omega, h3, fun hs => h4 (by omega), h5⟩
  · obtain ⟨s, h1, h2, h3, h4, h5⟩ :=
      speLoop_spec (gentile_pk lambda_ opct)
        (fun k => normal_pdf x (eped + k * pe)
          (Real.sqrt (k * pe_sigma ^ 2 + eped_sigma ^ 2))) 1 99 1
        ((if disable_pedestal then 0 else Real.exp (-lambda_)) *
          normal_pdf x eped eped_sigma) (le_refl 1)
    rw [runMax_self] at h5
    exact ⟨s, h1, by omega, h3, fun hs => h4 (by omega), h5⟩

/-- C3 witness: the truncation characterization of the PMT density at a
concrete parameter point. -/
theorem truncation_policy_witness :
    ∃ s, 1 ≤ s ∧ s ≤ 100 ∧
      (∀ j, 1 ≤ j → j < s → ¬ breakAt (fun k => poisson k 1) 1 j) ∧
      (s < 100 → breakAt (fun k => poisson k 1) 1 s) ∧
      pmt_single_gaussian 0 0 1 1 1 1 false =
        (if false then 0 else Real.exp (-1)) * normal_pdf 0 0 1 +
          ∑ j ∈ Finset.Ico 1 s, poisson j 1 *
            normal_pdf 0 (0 + j * 1) (Real.sqrt (j * 1 ^ 2 + 1 ^ 2)) :=
  (truncation_policy 0 0 1 1 1 0 1 false).1

/-- The source's `poisson` kernel agrees with the textbook Poisson PMF for
a positive mean. -/
lemma poisson_eq_pmf (j : ℕ) (mu : ℝ) (hmu : 0 < mu) :
    poisson j mu = mu ^ j * Real.exp (-mu) / (Nat.factorial j) := by
  unfold poisson poisson_logpmf xlogy
  rcases Nat.eq_zero_or_pos j with hj | hj
  · subst hj
    rw [if_pos (by norm_num)]
    simp [Real.exp_neg]
  · rw [if_neg (show ((j : ℕ) : ℝ) ≠ 0 from Nat.cast_ne_zero.mpr (by omega))]
    rw [sub_sub, Real.exp_sub, Real.exp_add,
      Real.exp_log (by positivity : (0 : ℝ) < (Nat.factorial j : ℝ))]
    rw [Real.exp_nat_mul, Real.exp_log hmu, Real.exp_neg]
    have hf : ((Nat.factorial j : ℝ)) ≠ 0 := by positivity
    have he : Real.exp mu ≠ 0 := Real.exp_ne_zero mu
    field_simp
    ring

/-- The source's `binom` kernel agrees with the binomial coefficient. -/
lemma binom_eq_choose (n k : ℕ) (hk : k ≤ n) :
    binom n k = (Nat.choose n k : ℝ) := by
  unfold binom
  rw [sub_sub, Real.exp_sub, Real.exp_add,
    Real.exp_log (by positivity : (0 : ℝ) < (Nat.factorial n : ℝ)),
    Real.exp_log (by positivity : (0 : ℝ) < (Nat.factorial k : ℝ)),
    Real.exp_log (by positivity : (0 : ℝ) < (Nat.factorial (n - k) : ℝ))]
  have hcf : (Nat.choose n k : ℝ) * (Nat.factorial k : ℝ) *
      (Nat.factorial (n - k) : ℝ) = (Nat.factorial n : ℝ) := by
    exact_mod_cast congrArg (Nat.cast : ℕ → ℝ)
      (Nat.choose_mul_factorial_mul_factorial hk)
  rw [div_eq_iff (by positivity), ← hcf]
  ring

/-- A fold with a skip guard, re-read as a guarded sum over `1..n`. -/
lemma foldl_guard_sum (c : ℕ → Prop) (t : ℕ → ℝ) :
    ∀ (n : ℕ) (acc : ℝ),
      (List.range n).foldl
        (fun a jm => if c (jm + 1) then a else a + t (jm + 1)) acc =
        acc + ∑ j ∈ Finset.Icc 1 n, if c j then 0 else t j
  | 0, acc => by simp
  | n + 1, acc => by
    rw [List.range_succ, List.foldl_append, List.foldl_cons, List.foldl_nil]
    rw [foldl_guard_sum c t n acc]
    rw [Finset.sum_Icc_succ_top (by omega : 1 ≤ n + 1)]
    by_cases hc : c (n + 1)
    · rw [if_pos hc, if_pos hc, add_zero]
    · rw [if_neg hc, if_neg hc]
      ring

/-- The Gentile inner loop computes the crosstalk sum restricted to the
terms whose initial-Poisson factor is at least `1e-4` (the others are
skipped by the `continue`). -/
lemma gentile_pk_eq_guarded (lambda_ opct : ℝ) (k : ℕ) :
    gentile_pk lambda_ opct k =
      ∑ j ∈ Finset.Icc 1 k,
        if poisson j lambda_ < 1e-4 then 0
        else poisson j lambda_ * (1 - opct) ^ j * opct ^ (k - j) *
          binom (k - 1) (j - 1) := by
  have h := foldl_guard_sum (fun j => poisson j lambda_ < 1e-4)
    (fun j => poisson j lambda_ * (1 - opct) ^ j * opct ^ (k - j) *
      binom (k - 1) (j - 1)) k 0
  rw [zero_add] at h
  exact h

/-- C4 counterexample: at `lambda = 1/100`, `p_ct = 1/2`, `k = 2`, the
`j = 2` term of the crosstalk sum has Poisson factor below `1e-4` and is
skipped by the source, so the computed weight differs from the claimed full
sum. -/
theorem gentile_weight_skips_small_terms :
    gentile_pk (1 / 100) (1 / 2) 2 ≠ gentile_pk_full (1 / 100) (1 / 2) 2 := by
  have hexp_le : Real.exp (-(1 / 100 : ℝ)) ≤ 1 := by
    rw [← Real.exp_zero]
    exact Real.exp_le_exp.mpr (by norm_num)
  have hexp_ge : (99 / 100 : ℝ) ≤ Real.exp (-(1 / 100 : ℝ)) := by
    have := Real.add_one_le_exp (-(1 / 100 : ℝ))
    linarith
  have hp1 : poisson 1 (1 / 100) = (1 / 100 : ℝ) * Real.exp (-(1 / 100)) := by
    rw [poisson_eq_pmf 1 (1 / 100) (by norm_num)]
    norm_num
  have hp2 : poisson 2 (1 / 100) = (1 / 100 : ℝ) ^ 2 * Real.exp (-(1 / 100)) / 2 := by
    rw [poisson_eq_pmf 2 (1 / 100) (by norm_num)]
    norm_num [Nat.factorial]
  have h1 : ¬ poisson 1 (1 / 100) < (1e-4 : ℝ) := by
    rw [hp1, not_lt]
    nlinarith
  have h2 : poisson 2 (1 / 100) < (1e-4 : ℝ) := by
    rw [hp2]
    nlinarith [Real.exp_pos (-(1 / 100 : ℝ))]
  have hIcc : Finset.Icc 1 2 = ({1, 2} : Finset ℕ) := by decide
  rw [gentile_pk_eq_guarded, gentile_pk_full, hIcc,
    Finset.sum_pair (by decide : (1 : ℕ) ≠ 2),
    Finset.sum_pair (by decide : (1 : ℕ) ≠ 2)]
  simp only [if_neg h1, if_pos h2, add_zero]
  intro heq
  have hq2 : (0 : ℝ) < poisson 2 (1 / 100) := Real.exp_pos _
  have hb : (0 : ℝ) < binom (2 - 1) (2 - 1) := Real.exp_pos _
  have hT2 : (0 : ℝ) < poisson 2 (1 / 100) * (1 - 1 / 2) ^ 2 *
      (1 / 2 : ℝ) ^ (2 - 2) * binom (2 - 1) (2 - 1) :=
    mul_pos (mul_pos (mul_pos hq2 (by norm_num)) (by norm_num)) hb
  linarith

/-- C4 (amended): the `k`-th Gentile weight is the sum over `j = 1..k` of
(Poisson PMF at `j` with mean lambda) times `(1 - p_ct)^j * p_ct^(k - j) *
C(k - 1, j - 1)`, restricted to the terms whose Poisson factor is at least
`1e-4`; terms below that floor are omitted by the source's `continue`. -/
theorem gentile_weight_guarded_sum (lambda_ opct : ℝ) (k : ℕ) (hl : 0 < lambda_) :
    gentile_pk lambda_ opct k =
      ∑ j ∈ Finset.Icc 1 k,
        if poisson j lambda_ < 1e-4 then 0
        else lambda_ ^ j * Real.exp (-lambda_) / (Nat.factorial j) *
          ((1 - opct) ^ j * opct ^ (k - j) * (Nat.choose (k - 1) (j - 1) : ℝ)) := by
  rw [gentile_pk_eq_guarded]
  refine Finset.sum_congr rfl fun j hj => ?_
  rw [Finset.mem_Icc] at hj
  by_cases hc : poisson j lambda_ < 1e-4
  · rw [if_pos hc, if_pos hc]
  · rw [if_neg hc, if_neg hc, poisson_eq_pmf j lambda_ hl,
      binom_eq_choose (k - 1) (j - 1) (by omega)]
    ring

/-- C4 witness: the amended characterization at `lambda = 1`, `p_ct = 0`,
`k = 1`. -/
theorem gentile_weight_guarded_sum_witness :
    ((0 : ℝ) < 1) ∧
      gentile_pk 1 0 1 =
        ∑ j ∈ Finset.Icc 1 1,
          if poisson j 1 < 1e-4 then 0
          else (1 : ℝ) ^ j * Real.exp (-1) / (Nat.factorial j) *
            ((1 - 0 : ℝ) ^ j * (0 : ℝ) ^ (1 - j) * (Nat.choose (1 - 1) (j - 1) : ℝ)) :=
  ⟨by norm_num, gentile_weight_guarded_sum 1 0 1 (by norm_num)⟩

/-- The Gaussian density is positive for a positive standard deviation. -/
lemma normal_pdf_pos (x mean std : ℝ) (h : 0 < std) : 0 < normal_pdf x mean std := by
  unfold normal_pdf
  apply div_pos (Real.exp_pos _)
  exact mul_pos (Real.sqrt_pos.mpr (by positivity)) h

/-- At `k = 0` the generalized-Poisson weight formula collapses to the
plain pedestal weight `exp(-lambda)` (for positive mean). -/
lemma generalized_poisson_zero (lam opct : ℝ) (hl : 0 < lam) :
    generalized_poisson 0 lam opct = Real.exp (-lam) := by
  unfold generalized_poisson
  simp only [Nat.cast_zero, zero_mul, add_zero, Nat.factorial_zero, Nat.cast_one,
    Real.log_one, sub_zero]
  rw [show ((0 : ℝ) - 1) * Real.log lam - lam = -Real.log lam + -lam from by ring]
  rw [Real.exp_add, Real.exp_neg, Real.exp_log hl]
  field_simp

/-- Closed form of the generalized-Poisson weight at `k = 1`. -/
lemma generalized_poisson_one (lam opct : ℝ) :
    generalized_poisson 1 lam opct = lam * Real.exp (-(lam + opct)) := by
  unfold generalized_poisson
  norm_num [Nat.factorial_one]

/-- Closed form of the generalized-Poisson weight at `k = 2`. -/
lemma generalized_poisson_two (lam opct : ℝ) :
    generalized_poisson 2 lam opct =
      lam * Real.exp (Real.log (lam + 2 * opct) - (lam + 2 * opct) - Real.log 2) := by
  unfold generalized_poisson
  norm_num [Nat.factorial]

/-- Taking one component in the truncation loop (`p > p_max`). -/
lemma speLoop_step_take (w g : ℕ → ℝ) (k fuel : ℕ) (pMax acc : ℝ) (h : pMax < w k) :
    speLoop w g k (fuel + 1) pMax acc =
      speLoop w g (k + 1) fuel (w k) (acc + w k * g k) := by
  rw [speLoop_succ, if_pos h]

/-- Breaking out of the truncation loop (`p <= p_max` and `p < 1e-4`). -/
lemma speLoop_step_break (w g : ℕ → ℝ) (k fuel : ℕ) (pMax acc : ℝ)
    (h1 : ¬ pMax < w k) (h2 : w k < 1e-4) :
    speLoop w g k (fuel + 1) pMax acc = acc := by
  rw [speLoop_succ, if_neg h1, if_pos h2]

/-- C10 counterexample: at `x = 0`, `eped = 0`, `eped_sigma = pe = pe_sigma
= 1`, `opct = 1/5`, `lambda = 1e-5`, the generalized-Poisson loop (which
runs its running maximum through the `k = 0` pedestal weight, about 1)
breaks before adding the `k = 1` component, while the modified-Poisson loop
(whose pedestal sits outside the loop, leaving `p_max = 0`) adds it — so
the two spectra differ even with the pedestal enabled. -/
theorem mpoisson_generalized_spectra_differ :
    sipm_mpoisson 0 0 1 1 1 (1 / 5) (1 / 100000) false ≠
      sipm_generalized_poisson 0 0 1 1 1 (1 / 5) (1 / 100000) := by
  have hgp0 : generalized_poisson 0 (1 / 100000) (1 / 5) =
      Real.exp (-(1 / 100000 : ℝ)) :=
    generalized_poisson_zero _ _ (by norm_num)
  have hgp1 : generalized_poisson 1 (1 / 100000) (1 / 5) =
      (1 / 100000 : ℝ) * Real.exp (-(1 / 100000 + 1 / 5 : ℝ)) :=
    generalized_poisson_one _ _
  have hgp2 : generalized_poisson 2 (1 / 100000) (1 / 5) =
      (1 / 100000 : ℝ) * Real.exp (Real.log (1 / 100000 + 2 * (1 / 5) : ℝ) -
        (1 / 100000 + 2 * (1 / 5) : ℝ) - Real.log 2) :=
    generalized_poisson_two _ _
  have hA_pos : (0 : ℝ) < Real.exp (-(1 / 100000 : ℝ)) := Real.exp_pos _
  have hB_pos : (0 : ℝ) < Real.exp (-(1 / 100000 + 1 / 5 : ℝ)) := Real.exp_pos _
  have hB_le : Real.exp (-(1 / 100000 + 1 / 5 : ℝ)) ≤ 1 := by
    rw [← Real.exp_zero]
    exact Real.exp_le_exp.mpr (by norm_num)
  have hBA : Real.exp (-(1 / 100000 + 1 / 5 : ℝ)) =
      Real.exp (-(1 / 100000 : ℝ)) * Real.exp (-(1 / 5 : ℝ)) := by
    rw [← Real.exp_add]
    congr 1
    ring
  have hC_le : Real.exp (-(1 / 5 : ℝ)) ≤ 1 := by
    rw [← Real.exp_zero]
    exact Real.exp_le_exp.mpr (by norm_num)
  have hC_pos : (0 : ℝ) < Real.exp (-(1 / 5 : ℝ)) := Real.exp_pos _
  have hw1_pos : (0 : ℝ) < generalized_poisson 1 (1 / 100000) (1 / 5) := by
    rw [hgp1]
    positivity
  have hw1_le_w0 : generalized_poisson 1 (1 / 100000) (1 / 5) ≤
      generalized_poisson 0 (1 / 100000) (1 / 5) := by
    rw [hgp0, hgp1, hBA]
    nlinarith
  have hw1_lt : generalized_poisson 1 (1 / 100000) (1 / 5) < 1e-4 := by
    rw [hgp1]
    nlinarith
  have hlogm2_neg : Real.log (1 / 100000 + 2 * (1 / 5) : ℝ) < 0 :=
    Real.log_neg (by norm_num) (by norm_num)
  have hlog2_pos : (0 : ℝ) < Real.log 2 := Real.log_pos (by norm_num)
  have hD_le_B : Real.exp (Real.log (1 / 100000 + 2 * (1 / 5) : ℝ) -
      (1 / 100000 + 2 * (1 / 5) : ℝ) - Real.log 2) ≤
      Real.exp (-(1 / 100000 + 1 / 5 : ℝ)) :=
    Real.exp_le_exp.mpr (by nlinarith)
  have hD_le_m2 : Real.exp (Real.log (1 / 100000 + 2 * (1 / 5) : ℝ) -
      (1 / 100000 + 2 * (1 / 5) : ℝ) - Real.log 2) ≤
      (1 / 100000 + 2 * (1 / 5) : ℝ) := by
    calc Real.exp (Real.log (1 / 100000 + 2 * (1 / 5) : ℝ) -
        (1 / 100000 + 2 * (1 / 5) : ℝ) - Real.log 2) ≤
        Real.exp (Real.log (1 / 100000 + 2 * (1 / 5) : ℝ)) :=
          Real.exp_le_exp.mpr (by nlinarith)
      _ = (1 / 100000 + 2 * (1 / 5) : ℝ) := Real.exp_log (by norm_num)
  have hw2_le_w1 : generalized_poisson 2 (1 / 100000) (1 / 5) ≤
      generalized_poisson 1 (1 / 100000) (1 / 5) := by
    rw [hgp1, hgp2]
    nlinarith
  have hw2_lt : generalized_poisson 2 (1 / 100000) (1 / 5) < 1e-4 := by
    rw [hgp2]
    nlinarith
  have hgen : sipm_generalized_poisson 0 0 1 1 1 (1 / 5) (1 / 100000) =
      Real.exp (-(1 / 100000 : ℝ)) * normal_pdf 0 0 1 := by
    unfold sipm_generalized_poisson
    rw [show (100 : ℕ) = 99 + 1 from rfl]
    rw [speLoop_step_take _ _ _ _ _ _
      (show (0 : ℝ) < generalized_poisson 0 (1 / 100000) (1 / 5) from by
        rw [hgp0]; exact hA_pos)]
    rw [show (99 : ℕ) = 98 + 1 from rfl]
    rw [speLoop_step_break _ _ _ _ _ _
      (show ¬ generalized_poisson 0 (1 / 100000) (1 / 5) <
          generalized_poisson 1 (1 / 100000) (1 / 5) from not_lt.mpr hw1_le_w0)
      (show generalized_poisson 1 (1 / 100000) (1 / 5) < 1e-4 from hw1_lt)]
    rw [zero_add, hgp0]
    norm_num [Real.sqrt_one]
  have hmp : sipm_mpoisson 0 0 1 1 1 (1 / 5) (1 / 100000) false =
      Real.exp (-(1 / 100000 : ℝ)) * normal_pdf 0 0 1 +
        generalized_poisson 1 (1 / 100000) (1 / 5) *
          normal_pdf 0 1 (Real.sqrt 2) := by
    unfold sipm_mpoisson
    rw [show (99 : ℕ) = 98 + 1 from rfl]
    rw [speLoop_step_take _ _ _ _ _ _
      (show (0 : ℝ) < modified_poisson 1 (1 / 100000) (1 / 5) from hw1_pos)]
    rw [show (98 : ℕ) = 97 + 1 from rfl]
    rw [speLoop_step_break _ _ _ _ _ _
      (show ¬ modified_poisson 1 (1 / 100000) (1 / 5) <
          modified_poisson 2 (1 / 100000) (1 / 5) from not_lt.mpr hw2_le_w1)
      (show modified_poisson 2 (1 / 100000) (1 / 5) < 1e-4 from hw2_lt)]
    norm_num [Real.sqrt_one]
    exact Or.inl rfl
  intro heq
  rw [hmp, hgen] at heq
  have hnp : (0 : ℝ) < normal_pdf 0 1 (Real.sqrt 2) :=
    normal_pdf_pos _ _ _ (Real.sqrt_pos.mpr (by norm_num))
  nlinarith [mul_pos hw1_pos hnp]

/-- C10 (amended): the per-`k` weight formulas of the modified-Poisson and
generalized-Poisson variants are identical, and the modified variant's
explicit `k = 0` pedestal weight `exp(-lambda)` equals the generalized
weight formula at `k = 0` (for positive lambda); but the two spectra are
not equal in general, because the truncation loops are seeded differently
(see the counterexample). -/
theorem mpoisson_weights_match_generalized :
    (∀ (k : ℕ) (mu opct : ℝ), modified_poisson k mu opct = generalized_poisson k mu opct) ∧
    (∀ (lambda_ opct : ℝ), 0 < lambda_ →
      generalized_poisson 0 lambda_ opct = Real.exp (-lambda_)) :=
  ⟨fun _ _ _ => rfl, fun lam opct hl => generalized_poisson_zero lam opct hl⟩

/-- C10 witness: the pedestal-weight identity at `lambda = 1`. -/
theorem mpoisson_weights_match_generalized_witness :
    ((0 : ℝ) < 1) ∧ generalized_poisson 0 1 0 = Real.exp (-1) :=
  ⟨by norm_num, mpoisson_weights_match_generalized.2 1 0 (by norm_num)⟩

end Spefit
